import Mathlib

/-
  Verification of core components of the redex bytecode optimizer:
  CFG mutation batching (src/libredex/CFGMutation.h), the concurrent
  sharded containers (src/libredex/ConcurrentContainers.h), the CFG
  inliner (src/service/method-inliner/CFGInliner.cpp) and the
  persistent Patricia-tree map (src/sparta/include/PatriciaTreeMap.h).
  Each C++ function is embedded as an executable Lean definition;
  machine pointers used as identities (IRInstruction*, tree nodes) are
  modelled as natural-number identifiers or as structural values, as
  noted at each definition.
-/

namespace Redex

/-! ### CFGMutation (src/libredex/CFGMutation.h) -/

/-- CFGMutation::Insert (CFGMutation.h line 26): position of an edit
relative to its anchor instruction. -/
inductive MInsert where
  | Before
  | After
  | Replacing
deriving DecidableEq, Repr

/-- CFGMutation::ChangeSet (CFGMutation.h lines 90-113): the pending
edits accumulated for one anchor.  Fields mirror m_insert_before,
m_replace and m_insert_after.  IRInstruction pointers are modelled as
natural-number identifiers (anchoring is by pointer identity). -/
structure ChangeSet where
  insert_before : List Nat
  replace : Option (List Nat)
  insert_after : List Nat
deriving DecidableEq, Repr

/-- A default-constructed ChangeSet: no pending instructions. -/
def ChangeSet.empty : ChangeSet := ⟨[], none, []⟩

/-- CFGMutation::ChangeSet::add_change (CFGMutation.h lines 121-138).
Before and After instruction lists are appended at the end of the
accumulated lists; a second Replacing trips always_assert_log, which is
modelled as returning none. -/
def ChangeSet.add_change (cs : ChangeSet) (whr : MInsert) (insns : List Nat) :
    Option ChangeSet :=
  match whr with
  | MInsert.Before =>
      some { cs with insert_before := cs.insert_before ++ insns }
  | MInsert.After =>
      some { cs with insert_after := cs.insert_after ++ insns }
  | MInsert.Replacing =>
      if cs.replace.isSome then none
      else some { cs with replace := some insns }

/-- The edit log m_changes (CFGMutation.h line 116): an unordered_map
from anchor instruction to ChangeSet, modelled as a total function with
default-constructed (empty) change sets for absent anchors, which is
how operator[] behaves. -/
def MutationLog : Type := Nat → ChangeSet

/-- A freshly constructed CFGMutation has an empty edit log. -/
def MutationLog.empty : MutationLog := fun _ => ChangeSet.empty

/-- CFGMutation::add_change (CFGMutation.h lines 140-145): route the
edit to the anchor's change set (m_changes[anchor->insn]).  The
always_assert(!anchor.is_end()) precondition is outside the model:
anchors are plain identifiers here. -/
def MutationLog.add_change (μ : MutationLog) (whr : MInsert) (anchor : Nat)
    (insns : List Nat) : Option MutationLog :=
  ((μ anchor).add_change whr insns).map (fun cs => Function.update μ anchor cs)

/-- A sequence of CFGMutation::add_change calls, applied left to right;
the whole sequence fails as soon as one call trips its assertion. -/
def MutationLog.add_changes (μ : MutationLog)
    (ops : List (MInsert × Nat × List Nat)) : Option MutationLog :=
  ops.foldlM (fun μ o => μ.add_change o.1 o.2.1 o.2.2) μ

/-- Modelled from the spec: CFGMutation::ChangeSet::apply is declared in
src/libredex/CFGMutation.h (line 99) but its definition
(CFGMutation.cpp) is not among the sources.  Per the header
documentation (lines 50-73) and the spec, the edits for one anchor are
laid out as the accumulated Before instructions, then the Replacing
instructions when present (standing in place of the anchor, which is
removed) or the preserved anchor itself, then the accumulated After
instructions. -/
def ChangeSet.apply (cs : ChangeSet) (anchor : Nat) : List Nat :=
  cs.insert_before ++ cs.replace.getD [anchor] ++ cs.insert_after

/-- Modelled from the spec: CFGMutation::flush is declared in
src/libredex/CFGMutation.h (line 84) but its definition is not among
the sources.  Per the spec, flush walks the instruction stream of the
CFG (modelled as the list of instruction identifiers it contains, in
order) and applies the change set staged for each instruction that is
still present; an edit whose anchor is no longer in the CFG is silently
dropped, and the edit log is empty afterwards.  The returned list is
the mutated instruction stream. -/
def MutationLog.flush (cfg : List Nat) (μ : MutationLog) : List Nat :=
  cfg.flatMap (fun i => (μ i).apply i)

/-- Modelled from the spec: CFGMutation::clear is declared in
src/libredex/CFGMutation.h (line 79) but its definition is not among
the sources.  Per the spec it discards all pending edits without
applying them, leaving the edit log empty. -/
def MutationLog.clear (_ : MutationLog) : MutationLog := MutationLog.empty

/-- Concatenation of all Before payloads of a single-anchor call
sequence, in call order. -/
def beforesOf (ops : List (MInsert × List Nat)) : List Nat :=
  (ops.filterMap (fun o => if o.1 = MInsert.Before then some o.2 else none)).flatten

/-- Concatenation of all After payloads of a single-anchor call
sequence, in call order. -/
def aftersOf (ops : List (MInsert × List Nat)) : List Nat :=
  (ops.filterMap (fun o => if o.1 = MInsert.After then some o.2 else none)).flatten

/-- The payload of the first Replacing call of a single-anchor call
sequence, if any. -/
def replaceOf (ops : List (MInsert × List Nat)) : Option (List Nat) :=
  (ops.filterMap (fun o => if o.1 = MInsert.Replacing then some o.2 else none)).head?

lemma changeSet_foldlM_spec (ops : List (MInsert × List Nat)) :
    ∀ cs cs' : ChangeSet,
      ops.foldlM (fun c o => c.add_change o.1 o.2) cs = some cs' →
      cs'.insert_before = cs.insert_before ++ beforesOf ops ∧
      cs'.insert_after = cs.insert_after ++ aftersOf ops ∧
      cs'.replace = cs.replace.or (replaceOf ops) := by
  induction ops with
  | nil =>
      intro cs cs' h
      simp only [List.foldlM_nil, Option.pure_def, Option.some.injEq] at h
      subst h
      simp [beforesOf, aftersOf, replaceOf]
  | cons op rest ih =>
      intro cs cs' h
      rw [List.foldlM_cons] at h
      rcases hop : cs.add_change op.1 op.2 with _ | cs1
      · rw [hop] at h; simp at h
      · rw [hop] at h
        simp only [Option.bind_eq_bind, Option.some_bind] at h
        obtain ⟨h1, h2, h3⟩ := ih cs1 cs' h
        rcases op with ⟨w, insns⟩
        cases w <;>
          simp only [ChangeSet.add_change] at hop
        · -- Before
          obtain rfl := Option.some.inj hop
          refine ⟨?_, ?_, ?_⟩ <;>
            simp_all [beforesOf, aftersOf, replaceOf]
        · -- After
          obtain rfl := Option.some.inj hop
          refine ⟨?_, ?_, ?_⟩ <;>
            simp_all [beforesOf, aftersOf, replaceOf]
        · -- Replacing
          rcases hrep : cs.replace with _ | r0
          · rw [hrep] at hop
            simp only [Option.isSome_none, Bool.false_eq_true, if_false,
              Option.some.injEq] at hop
            obtain rfl := hop
            refine ⟨?_, ?_, ?_⟩ <;>
              simp_all [beforesOf, aftersOf, replaceOf]
          · rw [hrep] at hop; simp at hop

lemma mutationLog_add_changes_single (anchor : Nat)
    (ops : List (MInsert × List Nat)) :
    ∀ μ μ' : MutationLog,
      μ.add_changes (ops.map (fun o => (o.1, anchor, o.2))) = some μ' →
      ∃ cs', ops.foldlM (fun c o => c.add_change o.1 o.2) (μ anchor) = some cs' ∧
        μ' = Function.update μ anchor cs' := by
  induction ops with
  | nil =>
      intro μ μ' h
      simp only [List.map_nil, MutationLog.add_changes, List.foldlM_nil,
        Option.pure_def, Option.some.injEq] at h
      subst h
      exact ⟨μ anchor, by simp, by simp⟩
  | cons op rest ih =>
      intro μ μ' h
      simp only [List.map_cons, MutationLog.add_changes, List.foldlM_cons] at h
      rcases hop : (μ anchor).add_change op.1 op.2 with _ | cs1
      · rw [MutationLog.add_change, hop] at h; simp at h
      · rw [MutationLog.add_change, hop] at h
        simp only [Option.map_some', Option.bind_eq_bind, Option.some_bind] at h
        obtain ⟨cs', hfold, hμ'⟩ :=
          ih (Function.update μ anchor cs1) μ' (by
            simpa [MutationLog.add_changes] using h)
        refine ⟨cs', ?_, ?_⟩
        · rw [List.foldlM_cons, hop]
          simpa [Function.update_same] using hfold
        · rw [hμ', Function.update_idem]

/-- Claim C2: for a single anchor, the calls add_change(Before, a1),
add_change(Replacing, r), add_change(Before, a2), add_change(After, y1),
add_change(After, y2) flush to exactly a1 ++ a2 ++ r ++ y1 ++ y2 in
place of the anchor; in general all Before payloads accumulate in call
order, then the Replacing payload (or the preserved anchor), then all
After payloads in call order. -/
theorem c2_mutation_ordering :
    (∀ (anchor : Nat) (a1 r a2 y1 y2 : List Nat),
      (MutationLog.empty.add_changes
          [(MInsert.Before, anchor, a1), (MInsert.Replacing, anchor, r),
           (MInsert.Before, anchor, a2), (MInsert.After, anchor, y1),
           (MInsert.After, anchor, y2)]).map (MutationLog.flush [anchor]) =
        some (a1 ++ a2 ++ r ++ y1 ++ y2)) ∧
    (∀ (anchor : Nat) (ops : List (MInsert × List Nat)) (μ' : MutationLog),
      MutationLog.empty.add_changes (ops.map (fun o => (o.1, anchor, o.2))) =
        some μ' →
      MutationLog.flush [anchor] μ' =
        beforesOf ops ++ (replaceOf ops).getD [anchor] ++ aftersOf ops) := by
  have general : ∀ (anchor : Nat) (ops : List (MInsert × List Nat))
      (μ' : MutationLog),
      MutationLog.empty.add_changes (ops.map (fun o => (o.1, anchor, o.2))) =
        some μ' →
      MutationLog.flush [anchor] μ' =
        beforesOf ops ++ (replaceOf ops).getD [anchor] ++ aftersOf ops := by
    intro anchor ops μ' h
    obtain ⟨cs', hfold, rfl⟩ := mutationLog_add_changes_single anchor ops _ _ h
    obtain ⟨h1, h2, h3⟩ := changeSet_foldlM_spec ops _ _ hfold
    simp only [MutationLog.empty, ChangeSet.empty] at h1 h2 h3
    simp only [MutationLog.flush, List.flatMap_cons, List.flatMap_nil,
      List.append_nil, Function.update_same, ChangeSet.apply]
    rw [h1, h2, h3]
    simp [Option.or]
  refine ⟨?_, general⟩
  intro anchor a1 r a2 y1 y2
  have h : MutationLog.empty.add_changes
      ([(MInsert.Before, a1), (MInsert.Replacing, r), (MInsert.Before, a2),
        (MInsert.After, y1), (MInsert.After, y2)].map
          (fun o => (o.1, anchor, o.2))) =
      some (Function.update MutationLog.empty anchor
        ⟨a1 ++ a2, some r, y1 ++ y2⟩) := by
    simp [MutationLog.add_changes, MutationLog.add_change,
      ChangeSet.add_change, MutationLog.empty, ChangeSet.empty,
      Function.update_same]
  have := general anchor
    [(MInsert.Before, a1), (MInsert.Replacing, r), (MInsert.Before, a2),
     (MInsert.After, y1), (MInsert.After, y2)] _ h
  simp only [List.map_cons, List.map_nil] at h
  rw [h, Option.map_some']
  rw [this]
  simp [beforesOf, aftersOf, replaceOf]

/-- Witness for c2_mutation_ordering at a concrete input. -/
theorem c2_mutation_witness :
    MutationLog.flush [7]
        (Function.update
          (Function.update MutationLog.empty 7 (⟨[1], none, []⟩ : ChangeSet))
          7 (⟨[1], none, [4]⟩ : ChangeSet)) = [1] ++ [7] ++ [4] := by
  have := c2_mutation_ordering.2 7
    [(MInsert.Before, [1]), (MInsert.After, [4])] _ rfl
  simpa [beforesOf, aftersOf, replaceOf] using this

/-- Counterexample to claim C8 as stated: if a clear() intervenes
between the two Replacing calls for the same anchor, the second call
succeeds (returns some rather than tripping the assertion), so the
rejection does not hold regardless of flush/clear ordering between the
two calls. -/
theorem c8_counterexample :
    (((MutationLog.empty.add_change MInsert.Replacing 0 [1]).map
        MutationLog.clear).bind
      (fun μ => μ.add_change MInsert.Replacing 0 [2])).isSome = true := rfl

lemma add_changes_replace_isSome (ops : List (MInsert × Nat × List Nat)) :
    ∀ μ μ' : MutationLog, μ.add_changes ops = some μ' →
      ∀ a, ((μ a).replace).isSome = true → ((μ' a).replace).isSome = true := by
  induction ops with
  | nil =>
      intro μ μ' h a ha
      simp only [MutationLog.add_changes, List.foldlM_nil, Option.pure_def,
        Option.some.injEq] at h
      subst h; exact ha
  | cons op rest ih =>
      intro μ μ' h a ha
      simp only [MutationLog.add_changes, List.foldlM_cons] at h
      rcases hop : μ.add_change op.1 op.2.1 op.2.2 with _ | μ1
      · rw [hop] at h; simp at h
      · rw [hop] at h
        simp only [Option.bind_eq_bind, Option.some_bind] at h
        refine ih μ1 μ' (by simpa [MutationLog.add_changes] using h) a ?_
        rw [MutationLog.add_change] at hop
        rcases hcs : (μ op.2.1).add_change op.1 op.2.2 with _ | cs1
        · rw [hcs] at hop; simp at hop
        · rw [hcs] at hop
          simp only [Option.map_some', Option.some.injEq] at hop
          subst hop
          by_cases hb : a = op.2.1
          · subst hb
            rw [Function.update_same]
            rcases op with ⟨w, b, insns⟩
            cases w <;> simp only [ChangeSet.add_change] at hcs
            · obtain rfl := Option.some.inj hcs; simpa using ha
            · obtain rfl := Option.some.inj hcs; simpa using ha
            · rw [if_pos ha] at hcs
              exact absurd hcs (by simp)
          · rw [Function.update_noteq hb]; exact ha

/-- Claim C8 (amended): once a Replacing edit has been staged for an
anchor and no flush or clear has intervened (only further add_change
calls), a second Replacing call for the same anchor trips the
contract-violation assertion.  (With an intervening flush or clear the
log is empty and the second call succeeds; see the counterexample.) -/
theorem c8_double_replace_amended (μ μ1 μ2 : MutationLog) (anchor : Nat)
    (r1 r2 : List Nat) (ops : List (MInsert × Nat × List Nat))
    (h1 : μ.add_change MInsert.Replacing anchor r1 = some μ1)
    (h2 : μ1.add_changes ops = some μ2) :
    μ2.add_change MInsert.Replacing anchor r2 = none := by
  have hμ1 : ((μ1 anchor).replace).isSome = true := by
    rw [MutationLog.add_change] at h1
    rcases hcs : (μ anchor).add_change MInsert.Replacing r1 with _ | cs1
    · rw [hcs] at h1; simp at h1
    · rw [hcs] at h1
      simp only [Option.map_some', Option.some.injEq] at h1
      subst h1
      simp only [ChangeSet.add_change] at hcs
      rcases hrep : (μ anchor).replace with _ | r0
      · rw [hrep] at hcs
        simp only [Option.isSome_none, Bool.false_eq_true, if_false,
          Option.some.injEq] at hcs
        obtain rfl := hcs
        simp [Function.update_same]
      · rw [hrep] at hcs; simp at hcs
  have hμ2 := add_changes_replace_isSome ops μ1 μ2 h2 anchor hμ1
  rw [MutationLog.add_change]
  simp [ChangeSet.add_change, hμ2]

/-- Witness for c8_double_replace_amended at a concrete input. -/
theorem c8_double_replace_witness :
    MutationLog.add_change
        (Function.update MutationLog.empty 0 (⟨[], some [1], []⟩ : ChangeSet))
        MInsert.Replacing 0 [2] =
      none :=
  c8_double_replace_amended MutationLog.empty _ _ 0 [1] [2] [] rfl rfl

lemma flush_empty_log (cfg : List Nat) :
    MutationLog.flush cfg MutationLog.empty = cfg := by
  induction cfg with
  | nil => rfl
  | cons i t iht =>
      simp only [MutationLog.flush, List.flatMap_cons] at iht ⊢
      rw [iht]
      simp [MutationLog.empty, ChangeSet.empty, ChangeSet.apply]

/-- Claim C9: an edit whose anchor instruction is no longer in the CFG
at flush time is silently dropped: flushing with the stale edit staged
yields exactly the same instruction stream as flushing without it (no
error is raised — flush is total), and flushing an empty log leaves the
CFG unchanged. -/
theorem c9_stale_anchor_drop (cfg : List Nat) (μ μ' : MutationLog) (a : Nat)
    (whr : MInsert) (insns : List Nat)
    (hstale : a ∉ cfg)
    (hadd : μ.add_change whr a insns = some μ') :
    MutationLog.flush cfg μ' = MutationLog.flush cfg μ ∧
    MutationLog.flush cfg MutationLog.empty = cfg := by
  constructor
  · rw [MutationLog.add_change] at hadd
    rcases hcs : (μ a).add_change whr insns with _ | cs1
    · rw [hcs] at hadd; simp at hadd
    · rw [hcs] at hadd
      simp only [Option.map_some', Option.some.injEq] at hadd
      subst hadd
      induction cfg with
      | nil => rfl
      | cons i t iht =>
          have hia : i ≠ a := by
            intro hh; exact hstale (hh ▸ List.mem_cons_self i t)
          simp only [MutationLog.flush, List.flatMap_cons]
          rw [Function.update_noteq hia]
          have := iht (fun hmem => hstale (List.mem_cons_of_mem i hmem))
          simp only [MutationLog.flush] at this
          rw [this]
  · exact flush_empty_log cfg

/-- Witness for c9_stale_anchor_drop at a concrete input. -/
theorem c9_stale_anchor_witness :
    MutationLog.flush [5]
        (Function.update MutationLog.empty 0 (⟨[9], none, []⟩ : ChangeSet)) =
      MutationLog.flush [5] MutationLog.empty ∧
    MutationLog.flush [5] MutationLog.empty = [5] :=
  c9_stale_anchor_drop [5] MutationLog.empty _ 0 MInsert.Before [9]
    (by decide) rfl

/-! ### Concurrent containers (src/libredex/ConcurrentContainers.h) -/

/-- Lookup in one hash slot.  The std::unordered_map / std::unordered_set
kept in each slot (m_slots, ConcurrentContainers.h line 176) is modelled
as an association list holding at most one entry per key and accessed
only through lookup, so entry order is irrelevant. -/
def slotFind {K V : Type} [DecidableEq K] (m : List (K × V)) (k : K) :
    Option V :=
  (m.find? (fun p => p.1 = k)).map (fun p => p.2)

/-- std::unordered_map::insert, as used by ConcurrentMapContainer::insert
(ConcurrentContainers.h lines 239-244): the entry is added only when the
key is not already present, and the Boolean is the .second of the pair
returned by the STL insert. -/
def umapInsert {K V : Type} [DecidableEq K] (m : List (K × V)) (e : K × V) :
    List (K × V) × Bool :=
  if (slotFind m e.1).isSome then (m, false) else (e :: m, true)

/-- std::unordered_map subscript assignment map[key] = value, as used by
ConcurrentMapContainer::insert_or_assign (ConcurrentContainers.h lines
268-273): overwrites the mapped value, inserting the key if absent. -/
def umapAssign {K V : Type} [DecidableEq K] (m : List (K × V)) (k : K)
    (v : V) : List (K × V) :=
  if (slotFind m k).isSome then
    m.map (fun p => if p.1 = k then (k, v) else p)
  else (k, v) :: m

/-- std::unordered_set::insert, as used by ConcurrentSet::insert
(ConcurrentContainers.h lines 346-351). -/
def usetInsert {K : Type} [DecidableEq K] (s : List K) (k : K) :
    List K × Bool :=
  if k ∈ s then (s, false) else (k :: s, true)

/-- The sharded slot array of a ConcurrentMapContainer, indexed by slot
number; operations touch only the slot Hash()(key) % n_slots. -/
def MapSlots (K V : Type) : Type := Nat → List (K × V)

/-- The sharded slot array of a ConcurrentSet. -/
def SetSlots (K : Type) : Type := Nat → List K

/-- ConcurrentMapContainer::insert (ConcurrentContainers.h lines
239-244): lock the slot of the entry's key and delegate to the STL
insert, returning whether the insertion took place. -/
def ccInsert {K V : Type} [DecidableEq K] (hash : K → Nat) (n : Nat)
    (st : MapSlots K V) (e : K × V) : MapSlots K V × Bool :=
  let slot := hash e.1 % n
  let r := umapInsert (st slot) e
  (Function.update st slot r.1, r.2)

/-- ConcurrentMapContainer::insert_or_assign (ConcurrentContainers.h
lines 268-273): lock the slot and assign through operator[]. -/
def ccInsertOrAssign {K V : Type} [DecidableEq K] (hash : K → Nat) (n : Nat)
    (st : MapSlots K V) (e : K × V) : MapSlots K V :=
  Function.update st (hash e.1 % n) (umapAssign (st (hash e.1 % n)) e.1 e.2)

/-- The binding visible for a key: ConcurrentMapContainer::at / get /
count read the slot Hash()(key) % n_slots (ConcurrentContainers.h lines
208-228). -/
def ccAt {K V : Type} [DecidableEq K] (hash : K → Nat) (n : Nat)
    (st : MapSlots K V) (k : K) : Option V :=
  slotFind (st (hash k % n)) k

/-- ConcurrentSet::insert (ConcurrentContainers.h lines 346-351). -/
def csInsert {K : Type} [DecidableEq K] (hash : K → Nat) (n : Nat)
    (st : SetSlots K) (k : K) : SetSlots K × Bool :=
  let slot := hash k % n
  let r := usetInsert (st slot) k
  (Function.update st slot r.1, r.2)

/-- Membership in a ConcurrentSet: count(key) reads the slot of the key
(ConcurrentContainers.h lines 124-128). -/
def csContains {K : Type} [DecidableEq K] (hash : K → Nat) (n : Nat)
    (st : SetSlots K) (k : K) : Bool :=
  decide (k ∈ st (hash k % n))

lemma slotFind_assign {K V : Type} [DecidableEq K] (m : List (K × V))
    (k : K) (v : V) (h : (slotFind m k).isSome = true) :
    slotFind (m.map (fun p => if p.1 = k then (k, v) else p)) k = some v := by
  induction m with
  | nil => simp [slotFind] at h
  | cons a t ih =>
      by_cases ha : a.1 = k
      · simp [slotFind, List.find?_cons, ha]
      · have h2 : (slotFind t k).isSome = true := by
          simpa [slotFind, List.find?_cons, ha] using h
        simpa [slotFind, List.find?_cons, ha] using ih h2

/-- Claim C10: without interleaving, ConcurrentMapContainer::insert and
ConcurrentSet::insert return true and add the binding exactly when the
key is absent; when the key is present they return false and leave the
container — in particular the previously mapped value — completely
unchanged, and insert never disturbs other keys; insert_or_assign is
the operation that overwrites. -/
theorem c10_insert_no_overwrite {K V : Type} [DecidableEq K]
    (hash : K → Nat) (n : Nat) (st : MapSlots K V) (sst : SetSlots K)
    (k : K) (v : V) :
    (ccAt hash n st k = none →
      (ccInsert hash n st (k, v)).2 = true ∧
      ccAt hash n (ccInsert hash n st (k, v)).1 k = some v ∧
      (∀ k2, k2 ≠ k →
        ccAt hash n (ccInsert hash n st (k, v)).1 k2 = ccAt hash n st k2)) ∧
    (∀ w, ccAt hash n st k = some w →
      (ccInsert hash n st (k, v)).2 = false ∧
      (ccInsert hash n st (k, v)).1 = st) ∧
    (csContains hash n sst k = false →
      (csInsert hash n sst k).2 = true ∧
      csContains hash n (csInsert hash n sst k).1 k = true) ∧
    (csContains hash n sst k = true →
      (csInsert hash n sst k).2 = false ∧
      (csInsert hash n sst k).1 = sst) ∧
    ccAt hash n (ccInsertOrAssign hash n st (k, v)) k = some v := by
  refine ⟨?_, ?_, ?_, ?_, ?_⟩
  · intro habs
    have hnone : slotFind (st (hash k % n)) k = none := habs
    refine ⟨?_, ?_, ?_⟩
    · simp [ccInsert, umapInsert, hnone]
    · have hnone2 :
          List.find? (fun p => decide (p.1 = k)) (st (hash k % n)) = none := by
        simpa [slotFind] using hnone
      simp [ccInsert, umapInsert, ccAt, slotFind, hnone2,
        Function.update_same, List.find?_cons]
    · intro k2 hk2
      by_cases hslot : hash k2 % n = hash k % n
      · simp only [ccAt, ccInsert, umapInsert, hnone, Option.isSome_none,
          Bool.false_eq_true, if_false, hslot, Function.update_same]
        simp [slotFind, List.find?_cons, hk2, Ne.symm hk2]
      · simp only [ccAt, ccInsert]
        rw [Function.update_noteq hslot]
  · intro w hw
    have hsome : (slotFind (st (hash k % n)) k).isSome = true := by
      simp [ccAt] at hw
      simp [hw]
    constructor
    · simp [ccInsert, umapInsert, hsome]
    · simp [ccInsert, umapInsert, hsome, Function.update_eq_self]
  · intro habs
    have hmem : k ∉ sst (hash k % n) := by
      simpa [csContains] using habs
    constructor
    · simp [csInsert, usetInsert, hmem]
    · simp [csInsert, usetInsert, hmem, csContains, Function.update_same]
  · intro hpres
    have hmem : k ∈ sst (hash k % n) := by
      simpa [csContains] using hpres
    constructor
    · simp [csInsert, usetInsert, hmem]
    · simp [csInsert, usetInsert, hmem, Function.update_eq_self]
  · by_cases hsome : (slotFind (st (hash k % n)) k).isSome = true
    · simp only [ccAt, ccInsertOrAssign, umapAssign, hsome, if_true,
        Function.update_same]
      exact slotFind_assign (st (hash k % n)) k v hsome
    · have hnone2 :
          List.find? (fun p => decide (p.1 = k)) (st (hash k % n)) = none := by
        rcases hf : List.find? (fun p => decide (p.1 = k)) (st (hash k % n))
          with _ | p
        · rfl
        · exact absurd (by simp [slotFind, hf]) hsome
      simp [ccAt, ccInsertOrAssign, umapAssign, slotFind, hnone2,
        Function.update_same, List.find?_cons]

/-- Witness for c10_insert_no_overwrite at a concrete input. -/
theorem c10_witness :
    (ccInsert (fun k => k) 3 (fun _ => ([] : List (Nat × Nat))) (5, 9)).2 =
        true ∧
      ccAt (fun k => k) 3
          (ccInsert (fun k => k) 3 (fun _ => ([] : List (Nat × Nat))) (5, 9)).1
          5 = some 9 ∧
      (∀ k2, k2 ≠ 5 →
        ccAt (fun k => k) 3
            (ccInsert (fun k => k) 3 (fun _ => ([] : List (Nat × Nat)))
              (5, 9)).1 k2 =
          ccAt (fun k => k) 3 (fun _ => ([] : List (Nat × Nat))) k2) :=
  (c10_insert_no_overwrite (fun k => k) 3 (fun _ => []) (fun _ => []) 5 9).1
    rfl

/-! ### CFG inliner (src/service/method-inliner/CFGInliner.cpp) -/

/-- IR opcodes, restricted to the classes the inliner distinguishes.
Modelled from the spec: IROpcode.h is not among the sources; the spec
describes load-param pseudo-instructions, register-to-register moves,
return instructions and instructions that may throw.  All remaining
opcodes are collapsed into IROp.Other carrying whether they can
throw. -/
inductive IROp where
  | LoadParam
  | LoadParamObject
  | LoadParamWide
  | Move
  | MoveObject
  | MoveWide
  | ReturnVoid
  | Return
  | ReturnObject
  | ReturnWide
  | Nop
  | Other (throws : Bool)
deriving DecidableEq, Repr

/-- Modelled from the spec: opcode::load_param_to_move (IROpcode.h is
not among the sources).  A load-param pseudo-instruction maps to the
register-to-register move of the same kind; any other opcode trips an
assertion, modelled as none. -/
def load_param_to_move : IROp → Option IROp
  | IROp.LoadParam => some IROp.Move
  | IROp.LoadParamObject => some IROp.MoveObject
  | IROp.LoadParamWide => some IROp.MoveWide
  | _ => none

/-- Modelled from the spec: is_return (IROpcode.h is not among the
sources); true exactly on the return opcodes. -/
def IROp.isReturn : IROp → Bool
  | IROp.ReturnVoid => true
  | IROp.Return => true
  | IROp.ReturnObject => true
  | IROp.ReturnWide => true
  | _ => false

/-- Modelled from the spec: opcode::can_throw (IROpcode.h is not among
the sources); load-params, moves, nops and returns cannot throw, other
opcodes carry their throwing capability. -/
def IROp.canThrow : IROp → Bool
  | IROp.Other throws => throws
  | _ => false

/-- An IRInstruction, reduced to what the inliner inspects: opcode,
optional destination register and source registers
(srcs_vec/src/dest/set_src/set_dest). -/
structure IRInstruction where
  op : IROp
  dest : Option Nat
  srcs : List Nat
deriving DecidableEq, Repr

/-- All registers referenced by an instruction: its sources and, when
present, its destination. -/
def regsOf (i : IRInstruction) : List Nat := i.srcs ++ i.dest.toList

/-- CFGInliner::remap_registers on one instruction (CFGInliner.cpp
lines 197-208): the caller's register count is added to every source
register and to the destination register when there is one. -/
def remap_insn (S : Nat) (i : IRInstruction) : IRInstruction :=
  ⟨i.op, i.dest.map (fun d => d + S), i.srcs.map (fun r => r + S)⟩

/-- CFGInliner::remap_registers over the callee instruction stream. -/
def remap_registers (S : Nat) (insns : List IRInstruction) :
    List IRInstruction :=
  insns.map (remap_insn S)

/-- CFGInliner::return_to_move (CFGInliner.cpp lines 438-452): the move
opcode matching a return opcode; the always_assert_log on a non-return
opcode is modelled as none. -/
def return_to_move : IROp → Option IROp
  | IROp.ReturnVoid => some IROp.Nop
  | IROp.Return => some IROp.Move
  | IROp.ReturnWide => some IROp.MoveWide
  | IROp.ReturnObject => some IROp.MoveObject
  | _ => none

/-- CFGInliner::move_arg_regs (CFGInliner.cpp lines 282-298): the i-th
load-param instruction of the callee (in parameter order) is replaced
by a move whose destination is that load-param's destination and whose
single source is srcs.at(i).  srcs.at(i) throws std::out_of_range when
the callee has more load-params than the call site has argument
registers, and load_param_to_move asserts on a non-load-param opcode;
both failures are modelled as none. -/
def move_arg_regs : List IRInstruction → List Nat → Option (List IRInstruction)
  | [], _ => some []
  | _ :: _, [] => none
  | p :: ps, s :: ss =>
      match load_param_to_move p.op with
      | none => none
      | some mop =>
          (move_arg_regs ps ss).map (fun rest => ⟨mop, p.dest, [s]⟩ :: rest)

/-- CFGInliner::move_return_reg (CFGInliner.cpp lines 303-329): every
return instruction becomes a move of its source into the return
register when a return register exists and the opcode is not
return-void; otherwise the return is deleted.  Reading src(0) of a
return without sources is out of bounds, modelled as none. -/
def move_return_reg (retReg : Option Nat) :
    List IRInstruction → Option (List IRInstruction)
  | [] => some []
  | i :: rest0 =>
      (move_return_reg retReg rest0).bind (fun rest =>
        if i.op.isReturn then
          match return_to_move i.op with
          | none => none
          | some mop =>
              match retReg with
              | some r =>
                  if mop = IROp.Nop then some rest
                  else
                    match i.srcs with
                    | [] => none
                    | s :: _ => some (⟨mop, some r, [s]⟩ :: rest)
              | none => some rest
        else some (i :: rest))

/-- The instruction-level projection of CFGInliner::inline_cfg
(CFGInliner.cpp lines 31-141) on the callee: registers are remapped by
the caller's register count (line 90), then the load-params become
argument moves (lines 92-95), then the returns become moves into the
return register or are dropped (line 113).  The callee is given as its
load-param instructions (get_param_instructions) followed by the rest
of its body.  In the default path the caller's register count becomes
caller_regs_size + callee_regs_size afterwards (line 126). -/
def inline_callee_insns (S : Nat) (params body : List IRInstruction)
    (args : List Nat) (retReg : Option Nat) : Option (List IRInstruction) :=
  (move_arg_regs (remap_registers S params) args).bind (fun moved =>
    (move_return_reg retReg (remap_registers S body)).map
      (fun b2 => moved ++ b2))

lemma move_arg_regs_spec :
    ∀ (params : List IRInstruction) (args : List Nat) (S : Nat),
      params.length = args.length →
      (∀ p ∈ params, (load_param_to_move p.op).isSome = true) →
      ∃ moves, move_arg_regs (remap_registers S params) args = some moves ∧
        moves.length = args.length ∧
        ∀ j pj aj, params.get? j = some pj → args.get? j = some aj →
          ∃ mop, load_param_to_move pj.op = some mop ∧
            moves.get? j =
              some ⟨mop, pj.dest.map (fun d => d + S), [aj]⟩ := by
  intro params
  induction params with
  | nil =>
      intro args S hlen hload
      obtain rfl : args = [] := by
        cases args with
        | nil => rfl
        | cons a as => simp at hlen
      exact ⟨[], rfl, rfl, by intro j pj aj hj; simp at hj⟩
  | cons p ps ih =>
      intro args S hlen hload
      cases args with
      | nil => simp at hlen
      | cons a as =>
          have hlen2 : ps.length = as.length := by
            simpa using hlen
          have hp : (load_param_to_move p.op).isSome = true :=
            hload p (List.mem_cons_self p ps)
          rcases hmop : load_param_to_move p.op with _ | mop
          · rw [hmop] at hp; simp at hp
          · obtain ⟨moves, hmoves, hlenm, hget⟩ :=
              ih as S hlen2
                (fun q hq => hload q (List.mem_cons_of_mem p hq))
            refine ⟨⟨mop, p.dest.map (fun d => d + S), [a]⟩ :: moves, ?_, ?_, ?_⟩
            · simp only [remap_registers, List.map_cons, move_arg_regs]
              have : load_param_to_move (remap_insn S p).op =
                  some mop := by
                simpa [remap_insn] using hmop
              rw [this]
              simp only [Option.map_eq_map]
              rw [show remap_registers S ps = List.map (remap_insn S) ps
                from rfl] at hmoves
              rw [hmoves]
              simp [remap_insn]
            · simpa using hlenm
            · intro j pj aj hj ha
              cases j with
              | zero =>
                  simp only [List.get?_cons_zero, Option.some.injEq] at hj ha
                  subst hj; subst ha
                  exact ⟨mop, hmop, rfl⟩
              | succ j =>
                  simp only [List.get?_cons_succ] at hj ha ⊢
                  exact hget j pj aj hj ha

/-- Claim C3: inlining a callee whose parameter list is N load-param
instructions at a call site with M = N argument registers turns the
i-th load-param into a register-to-register move whose destination is
that load-param's (remapped) destination register and whose source is
the i-th call-site argument register, for every i in [0, M); and every
callee-internal use of parameter i's register is remapped to exactly
the register that this move writes. -/
theorem c3_argument_threading (params body : List IRInstruction)
    (args : List Nat) (S : Nat)
    (hlen : params.length = args.length)
    (hload : ∀ p ∈ params, (load_param_to_move p.op).isSome = true) :
    ∃ moves, move_arg_regs (remap_registers S params) args = some moves ∧
      moves.length = args.length ∧
      ∀ j pj aj, params.get? j = some pj → args.get? j = some aj →
        ∃ mj, moves.get? j = some mj ∧
          load_param_to_move pj.op = some mj.op ∧
          mj.srcs = [aj] ∧
          mj.dest = pj.dest.map (fun d => d + S) ∧
          ∀ b ∈ body, ∀ idx d, pj.dest = some d → b.srcs.get? idx = some d →
            (remap_insn S b).srcs.get? idx = mj.dest := by
  obtain ⟨moves, hmoves, hlenm, hget⟩ := move_arg_regs_spec params args S hlen hload
  refine ⟨moves, hmoves, hlenm, ?_⟩
  intro j pj aj hj ha
  obtain ⟨mop, hmop, hgetm⟩ := hget j pj aj hj ha
  refine ⟨⟨mop, pj.dest.map (fun d => d + S), [aj]⟩, hgetm, hmop, rfl, rfl, ?_⟩
  intro b hb idx d hd hsrc
  simp only [remap_insn, List.get?_map, hsrc, Option.map_some', hd]

/-- Witness for c3_argument_threading at a concrete input. -/
theorem c3_argument_witness :
    ∃ moves,
      move_arg_regs
          (remap_registers 4 [⟨IROp.LoadParam, some 0, []⟩,
            ⟨IROp.LoadParamObject, some 1, []⟩]) [2, 3] = some moves ∧
      moves.length = [2, 3].length ∧
      ∀ j pj aj,
        [⟨IROp.LoadParam, some 0, []⟩,
          (⟨IROp.LoadParamObject, some 1, []⟩ : IRInstruction)].get? j =
            some pj →
        [2, 3].get? j = some aj →
        ∃ mj, moves.get? j = some mj ∧
          load_param_to_move pj.op = some mj.op ∧
          mj.srcs = [aj] ∧
          mj.dest = pj.dest.map (fun d => d + 4) ∧
          ∀ b ∈ [(⟨IROp.Other true, none, [1, 0]⟩ : IRInstruction)],
            ∀ idx d, pj.dest = some d → b.srcs.get? idx = some d →
              (remap_insn 4 b).srcs.get? idx = mj.dest :=
  c3_argument_threading
    [⟨IROp.LoadParam, some 0, []⟩, ⟨IROp.LoadParamObject, some 1, []⟩]
    [⟨IROp.Other true, none, [1, 0]⟩] [2, 3] 4 (by decide) (by decide)

lemma regsOf_remap (S : Nat) (i : IRInstruction) :
    regsOf (remap_insn S i) = (regsOf i).map (fun r => r + S) := by
  rcases i with ⟨op, dst, srcs⟩
  cases dst <;> simp [regsOf, remap_insn]

lemma remap_regs_ge (S : Nat) (insns : List IRInstruction) :
    ∀ i ∈ remap_registers S insns, ∀ r ∈ regsOf i, S ≤ r := by
  intro i hi r hr
  simp only [remap_registers, List.mem_map] at hi
  obtain ⟨i0, _, rfl⟩ := hi
  rw [regsOf_remap] at hr
  simp only [List.mem_map] at hr
  obtain ⟨r0, _, rfl⟩ := hr
  omega

lemma remap_regs_lt (S c : Nat) (insns : List IRInstruction)
    (h : ∀ i ∈ insns, ∀ r ∈ regsOf i, r < c) :
    ∀ i ∈ remap_registers S insns, ∀ r ∈ regsOf i, r < S + c := by
  intro i hi r hr
  simp only [remap_registers, List.mem_map] at hi
  obtain ⟨i0, hi0, rfl⟩ := hi
  rw [regsOf_remap] at hr
  simp only [List.mem_map] at hr
  obtain ⟨r0, hr0, rfl⟩ := hr
  have := h i0 hi0 r0 hr0
  omega

lemma move_arg_regs_mem :
    ∀ (ps : List IRInstruction) (args : List Nat)
      (moves : List IRInstruction),
      move_arg_regs ps args = some moves →
      ∀ m ∈ moves, ∃ p ∈ ps, ∃ a ∈ args, m.dest = p.dest ∧ m.srcs = [a] := by
  intro ps
  induction ps with
  | nil =>
      intro args moves h m hm
      simp only [move_arg_regs, Option.some.injEq] at h
      subst h; simp at hm
  | cons p ps ih =>
      intro args moves h m hm
      cases args with
      | nil => simp [move_arg_regs] at h
      | cons a as =>
          simp only [move_arg_regs] at h
          rcases hmop : load_param_to_move p.op with _ | mop
          · rw [hmop] at h; simp at h
          · rw [hmop] at h
            rcases hrec : move_arg_regs ps as with _ | rest
            · rw [hrec] at h; simp at h
            · rw [hrec] at h
              simp only [Option.map_some', Option.some.injEq] at h
              subst h
              rcases List.mem_cons.mp hm with rfl | hm2
              · exact ⟨p, List.mem_cons_self _ _, a, List.mem_cons_self _ _,
                  rfl, rfl⟩
              · obtain ⟨p2, hp2, a2, ha2, h1, h2⟩ := ih as rest hrec m hm2
                exact ⟨p2, List.mem_cons_of_mem _ hp2, a2,
                  List.mem_cons_of_mem _ ha2, h1, h2⟩

lemma move_return_reg_mem (retReg : Option Nat) :
    ∀ (insns out : List IRInstruction),
      move_return_reg retReg insns = some out →
      ∀ x ∈ out, x ∈ insns ∨
        ∃ i ∈ insns, ∃ s ∈ i.srcs, ∃ r, retReg = some r ∧
          x.dest = some r ∧ x.srcs = [s] := by
  intro insns
  induction insns with
  | nil =>
      intro out h x hx
      simp only [move_return_reg, Option.some.injEq] at h
      subst h; simp at hx
  | cons i rest0 ih =>
      intro out h x hx
      simp only [move_return_reg] at h
      rcases hrec : move_return_reg retReg rest0 with _ | rest
      · rw [hrec] at h; simp at h
      · rw [hrec] at h
        simp only [Option.bind_eq_bind, Option.some_bind] at h
        have lift : x ∈ rest → x ∈ i :: rest0 ∨
            ∃ i2 ∈ i :: rest0, ∃ s ∈ i2.srcs, ∃ r, retReg = some r ∧
              x.dest = some r ∧ x.srcs = [s] := by
          intro hxr
          rcases ih rest hrec x hxr with h1 | ⟨i2, hi2, s, hs, r, hr, hd, hsr⟩
          · exact Or.inl (List.mem_cons_of_mem _ h1)
          · exact Or.inr ⟨i2, List.mem_cons_of_mem _ hi2, s, hs, r, hr, hd, hsr⟩
        by_cases hret : i.op.isReturn = true
        · rw [if_pos hret] at h
          rcases hmop : return_to_move i.op with _ | mop
          · rw [hmop] at h; simp at h
          · rw [hmop] at h
            rcases retReg with _ | r
            · obtain rfl := Option.some.inj h
              exact lift hx
            · have h2 : (if mop = IROp.Nop then some rest
                  else match i.srcs with
                    | [] => none
                    | s :: _ => some (⟨mop, some r, [s]⟩ :: rest)) =
                  some out := h
              by_cases hnop : mop = IROp.Nop
              · rw [if_pos hnop] at h2
                obtain rfl := Option.some.inj h2
                exact lift hx
              · rw [if_neg hnop] at h2
                rcases hsrcs : i.srcs with _ | ⟨s, srest⟩
                · rw [hsrcs] at h2; simp at h2
                · rw [hsrcs] at h2
                  obtain rfl := Option.some.inj h2
                  rcases List.mem_cons.mp hx with rfl | hx2
                  · exact Or.inr ⟨i, List.mem_cons_self _ _, s,
                      (by rw [hsrcs]; exact List.mem_cons_self _ _), r,
                      rfl, rfl, rfl⟩
                  · exact lift hx2
        · rw [if_neg hret] at h
          obtain rfl := Option.some.inj h
          rcases List.mem_cons.mp hx with rfl | hx2
          · exact Or.inl (List.mem_cons_self _ _)
          · exact lift hx2

/-- Counterexample to claim C4 as stated: inlining a callee with one
load-param (destination register 0) into a caller with
registers_size 1, argument register 0, produces the callee-originated
move ⟨Move, dest 1, src 0⟩ whose source register 0 is smaller than the
caller's pre-inline registers_size 1. -/
theorem c4_counterexample :
    inline_callee_insns 1 [⟨IROp.LoadParam, some 0, []⟩]
        [⟨IROp.ReturnVoid, none, []⟩] [0] none =
      some [⟨IROp.Move, some 1, [0]⟩] ∧
    (0 : Nat) ∈ regsOf ⟨IROp.Move, some 1, [0]⟩ ∧ ¬ (1 : Nat) ≤ 0 :=
  ⟨rfl, by decide, by decide⟩

/-- Claim C4 (amended): remap_registers lifts every callee register to
at least the caller's pre-inline registers_size; after the whole
inlining pipeline every register of a callee-originated instruction is
at least that size except the sources of the converted load-param moves
(which are caller argument registers) and the destinations of the
converted return moves (which are the caller's result register); and
the final registers_size, caller_regs_size + callee_regs_size in the
default no-recompute path, exceeds every register referenced anywhere
in the merged CFG. -/
theorem c4_register_disjointness_amended
    (S calleeSize : Nat) (params body : List IRInstruction)
    (args : List Nat) (retReg : Option Nat)
    (caller out : List IRInstruction)
    (hcaller : ∀ i ∈ caller, ∀ r ∈ regsOf i, r < S)
    (hparams : ∀ i ∈ params, ∀ r ∈ regsOf i, r < calleeSize)
    (hbody : ∀ i ∈ body, ∀ r ∈ regsOf i, r < calleeSize)
    (hargs : ∀ a ∈ args, a < S)
    (hret : ∀ r, retReg = some r → r < S)
    (hout : inline_callee_insns S params body args retReg = some out) :
    (∀ i ∈ remap_registers S (params ++ body), ∀ r ∈ regsOf i, S ≤ r) ∧
    (∀ i ∈ out, ∀ r ∈ regsOf i, S ≤ r ∨ r ∈ args ∨ retReg = some r) ∧
    (∀ i ∈ caller ++ out, ∀ r ∈ regsOf i, r < S + calleeSize) := by
  rcases hma : move_arg_regs (remap_registers S params) args with _ | moved
  · rw [inline_callee_insns, hma] at hout; simp at hout
  · rcases hmr : move_return_reg retReg (remap_registers S body) with _ | b2
    · rw [inline_callee_insns, hma, hmr] at hout; simp at hout
    · rw [inline_callee_insns, hma, hmr] at hout
      simp only [Option.bind_eq_bind, Option.some_bind, Option.map_some',
        Option.some.injEq] at hout
      subst hout
      have hmoved : ∀ m ∈ moved, ∀ r ∈ regsOf m,
          (S ≤ r ∧ r < S + calleeSize) ∨ r ∈ args := by
        intro m hm r hr
        obtain ⟨p, hp, a, ha, hdest, hsrcs⟩ :=
          move_arg_regs_mem _ _ _ hma m hm
        simp only [regsOf, hsrcs, hdest, List.mem_append] at hr
        rcases hr with hr | hr
        · simp only [List.mem_singleton] at hr
          subst hr
          exact Or.inr ha
        · left
          have hrp : r ∈ regsOf p := by
            simp only [regsOf, List.mem_append]
            right
            exact hr
          exact ⟨remap_regs_ge S params p hp r hrp,
            remap_regs_lt S calleeSize params hparams p hp r hrp⟩
      have hb2 : ∀ x ∈ b2, ∀ r ∈ regsOf x,
          (S ≤ r ∧ r < S + calleeSize) ∨ retReg = some r := by
        intro x hx r hr
        rcases move_return_reg_mem retReg _ _ hmr x hx with
          hxb | ⟨i2, hi2, s, hs, r2, hr2, hdest, hsrcs⟩
        · exact Or.inl ⟨remap_regs_ge S body x hxb r hr,
            remap_regs_lt S calleeSize body hbody x hxb r hr⟩
        · simp only [regsOf, hsrcs, hdest, List.mem_append] at hr
          rcases hr with hr | hr
          · simp only [List.mem_singleton] at hr
            subst hr
            have hsi : r ∈ regsOf i2 := by
              simp only [regsOf, List.mem_append]
              left
              exact hs
            exact Or.inl ⟨remap_regs_ge S body i2 hi2 r hsi,
              remap_regs_lt S calleeSize body hbody i2 hi2 r hsi⟩
          · simp only [Option.toList_some, List.mem_singleton] at hr
            subst hr
            exact Or.inr hr2
      refine ⟨remap_regs_ge S (params ++ body), ?_, ?_⟩
      · intro i hi r hr
        rcases List.mem_append.mp hi with hi | hi
        · rcases hmoved i hi r hr with ⟨h1, _⟩ | h1
          · exact Or.inl h1
          · exact Or.inr (Or.inl h1)
        · rcases hb2 i hi r hr with ⟨h1, _⟩ | h1
          · exact Or.inl h1
          · exact Or.inr (Or.inr h1)
      · intro i hi r hr
        rcases List.mem_append.mp hi with hi | hi
        · have := hcaller i hi r hr
          omega
        · rcases List.mem_append.mp hi with hi | hi
          · rcases hmoved i hi r hr with ⟨_, h1⟩ | h1
            · exact h1
            · have := hargs r h1
              omega
          · rcases hb2 i hi r hr with ⟨_, h1⟩ | h1
            · exact h1
            · have := hret r h1
              omega

/-- Witness for c4_register_disjointness_amended at a concrete input. -/
theorem c4_register_witness :
    (∀ i ∈ remap_registers 2
        ([⟨IROp.LoadParam, some 0, []⟩] ++
          [(⟨IROp.Return, none, [1]⟩ : IRInstruction)]),
      ∀ r ∈ regsOf i, 2 ≤ r) ∧
    (∀ i ∈ [⟨IROp.Move, some 2, [1]⟩,
        (⟨IROp.Move, some 0, [3]⟩ : IRInstruction)],
      ∀ r ∈ regsOf i, 2 ≤ r ∨ r ∈ [1] ∨ (some 0 : Option Nat) = some r) ∧
    (∀ i ∈ [(⟨IROp.Other false, some 1, [0]⟩ : IRInstruction)] ++
        [⟨IROp.Move, some 2, [1]⟩,
          (⟨IROp.Move, some 0, [3]⟩ : IRInstruction)],
      ∀ r ∈ regsOf i, r < 2 + 2) :=
  c4_register_disjointness_amended 2 2
    [⟨IROp.LoadParam, some 0, []⟩] [⟨IROp.Return, none, [1]⟩]
    [1] (some 0)
    [⟨IROp.Other false, some 1, [0]⟩]
    [⟨IROp.Move, some 2, [1]⟩, ⟨IROp.Move, some 0, [3]⟩]
    (by decide) (by decide) (by decide) (by decide)
    (by intro r hr; cases Option.some.inj hr; decide) rfl

/-- A THROW edge of the CFG: its handler block (target), the handler's
catch type (none is a catch-all, m_throw_info->catch_type == nullptr)
and its ordinal index establishing try-region priority
(m_throw_info->index).  Blocks are identified by their ids. -/
structure ThrowEdge where
  target : Nat
  catchType : Option Nat
  index : Nat
deriving DecidableEq, Repr

/-- A callee basic block as CFGInliner::add_callee_throws_to_caller
inspects it: its instruction list and its outgoing throw edges. -/
structure TBlock where
  insns : List IRInstruction
  throws : List ThrowEdge
deriving DecidableEq, Repr

/-- Modelled from the spec: Block::get_outgoing_throws_in_order
(ControlFlow.cpp) is not among the sources.  Per the spec, THROW edges
carry an ordinal index establishing try-region priority and the
accessor returns the block's outgoing throw edges ordered by that
index; TBlock.throws holds exactly this ordered list (the theorems
carry the index-sortedness as an explicit hypothesis). -/
def TBlock.outgoingThrowsInOrder (b : TBlock) : List ThrowEdge := b.throws

/-- Whether the block's last instruction can throw: get_last_insn
followed by opcode::can_throw (CFGInliner.cpp lines 402-406); false for
an empty block (last == end). -/
def TBlock.endsThrowing (b : TBlock) : Bool :=
  match b.insns.getLast? with
  | some i => i.op.canThrow
  | none => false

/-- The add_throw_edges helper of
CFGInliner::add_callee_throws_to_caller (CFGInliner.cpp lines 383-391):
one new throw edge per caller catch edge, walked in caller_catches
order, indices counting up from starting_index; each new edge targets
that catch edge's handler and copies its catch type. -/
def add_throw_edges : List ThrowEdge → Nat → List ThrowEdge
  | [], _ => []
  | c :: cs, idx => ⟨c.target, c.catchType, idx⟩ :: add_throw_edges cs (idx + 1)

/-- The per-block body of the loop in
CFGInliner::add_callee_throws_to_caller (CFGInliner.cpp lines 393-418):
the throw edges added for one callee block.  A block without outgoing
throws gets edges starting at index 0 when its last instruction can
throw; a block whose existing (index-ordered) throw chain does not end
in a catch-all gets edges starting right after the last existing index;
a block whose chain ends in a catch-all gets nothing. -/
def new_throw_edges (catches : List ThrowEdge) (b : TBlock) : List ThrowEdge :=
  match b.outgoingThrowsInOrder with
  | [] => if b.endsThrowing then add_throw_edges catches 0 else []
  | t :: ts =>
      if ((t :: ts).getLast (List.cons_ne_nil t ts)).catchType.isSome then
        add_throw_edges catches
          (((t :: ts).getLast (List.cons_ne_nil t ts)).index + 1)
      else []

/-- The loop of CFGInliner::add_callee_throws_to_caller over all callee
blocks (CFGInliner.cpp lines 369-419): the throw edges added per
block. -/
def add_callee_throws (catches : List ThrowEdge) (blocks : List TBlock) :
    List (List ThrowEdge) :=
  blocks.map (new_throw_edges catches)

lemma add_throw_edges_get? (catches : List ThrowEdge) :
    ∀ (s j : Nat),
      (add_throw_edges catches s).get? j =
        (catches.get? j).map (fun c => ⟨c.target, c.catchType, s + j⟩) := by
  induction catches with
  | nil => intro s j; simp [add_throw_edges]
  | cons c cs ih =>
      intro s j
      cases j with
      | zero => simp [add_throw_edges]
      | succ j =>
          simp only [add_throw_edges, List.get?_cons_succ, ih]
          rcases cs.get? j with _ | c2
          · simp
          · simp only [Option.map_some']
            have : s + 1 + j = s + (j + 1) := by omega
            rw [this]

lemma add_throw_edges_index_ge (catches : List ThrowEdge) :
    ∀ (s : Nat), ∀ e ∈ add_throw_edges catches s, s ≤ e.index := by
  induction catches with
  | nil => intro s e he; simp [add_throw_edges] at he
  | cons c cs ih =>
      intro s e he
      rcases List.mem_cons.mp he with rfl | he2
      · simp
      · have := ih (s + 1) e he2
        omega

lemma pairwise_le_getLast :
    ∀ (l : List ThrowEdge) (h : l ≠ []),
      l.Pairwise (fun e1 e2 => e1.index ≤ e2.index) →
      ∀ e ∈ l, e.index ≤ (l.getLast h).index := by
  intro l
  induction l with
  | nil => intro h; exact absurd rfl h
  | cons a t ih =>
      intro h hp e he
      cases t with
      | nil =>
          simp only [List.mem_singleton] at he
          subst he
          simp [List.getLast]
      | cons b ts =>
          rw [List.getLast_cons (List.cons_ne_nil b ts)]
          rcases List.mem_cons.mp he with rfl | he2
          · have hhead := (List.pairwise_cons.mp hp).1
            exact hhead _ (List.getLast_mem (List.cons_ne_nil b ts))
          · exact ih (List.cons_ne_nil b ts) (List.pairwise_cons.mp hp).2 e he2

/-- Claim C5: for a call site with outgoing throw edges, each callee
block gets new throw edges to the caller's catch handlers as follows —
a block whose existing throw chain ends in a catch-all gets none; every
new edge's index is strictly greater than every existing throw index of
its block (appended after, never before); a block with no existing
throw edges gets edges exactly when its last instruction can throw,
starting at index 0; a block with an existing non-catch-all chain gets
edges starting right after the maximum existing index; and the added
edges follow the caller's catch list in catch-priority order with
consecutive indices, preserving each handler's target and catch
type. -/
theorem c5_throw_edge_reconnection (catches : List ThrowEdge) (b : TBlock)
    (hsorted : b.throws.Pairwise (fun e1 e2 => e1.index ≤ e2.index)) :
    (∀ h : b.outgoingThrowsInOrder ≠ [],
      (b.outgoingThrowsInOrder.getLast h).catchType = none →
      new_throw_edges catches b = []) ∧
    (∀ e ∈ new_throw_edges catches b, ∀ e0 ∈ b.outgoingThrowsInOrder,
      e0.index < e.index) ∧
    (b.outgoingThrowsInOrder = [] →
      new_throw_edges catches b =
        if b.endsThrowing then add_throw_edges catches 0 else []) ∧
    (∀ h : b.outgoingThrowsInOrder ≠ [],
      (b.outgoingThrowsInOrder.getLast h).catchType.isSome = true →
      new_throw_edges catches b =
        add_throw_edges catches
          ((b.outgoingThrowsInOrder.getLast h).index + 1)) ∧
    (∀ s j, (add_throw_edges catches s).get? j =
      (catches.get? j).map (fun c => ⟨c.target, c.catchType, s + j⟩)) := by
  rcases hb : b.outgoingThrowsInOrder with _ | ⟨t, ts⟩
  · refine ⟨?_, ?_, ?_, ?_, add_throw_edges_get? catches⟩
    · intro h; exact absurd rfl h
    · intro e he e0 he0
      simp at he0
    · intro h
      simp [new_throw_edges, hb]
    · intro h; exact absurd rfl h
  · have hlast : ∀ e ∈ t :: ts,
        e.index ≤ ((t :: ts).getLast (List.cons_ne_nil t ts)).index := by
      apply pairwise_le_getLast
      rw [show (t :: ts) = b.throws from hb.symm]
      exact hsorted
    refine ⟨?_, ?_, ?_, ?_, add_throw_edges_get? catches⟩
    · intro h hct
      have hct2 : ((t :: ts).getLast (List.cons_ne_nil t ts)).catchType =
          none := hct
      simp [new_throw_edges, hb, hct2]
    · intro e he e0 he0
      simp only [new_throw_edges, hb] at he
      by_cases hct :
          ((t :: ts).getLast (List.cons_ne_nil t ts)).catchType.isSome = true
      · rw [if_pos hct] at he
        have h1 := add_throw_edges_index_ge catches _ e he
        have h2 := hlast e0 he0
        omega
      · rw [if_neg hct] at he
        simp at he
    · intro h
      exact absurd h (List.cons_ne_nil t ts)
    · intro h hct
      have hct2 : ((t :: ts).getLast (List.cons_ne_nil t ts)).catchType.isSome =
          true := hct
      show new_throw_edges catches b =
        add_throw_edges catches
          (((t :: ts).getLast (List.cons_ne_nil t ts)).index + 1)
      simp [new_throw_edges, hb, hct2]

/-- Witness for c5_throw_edge_reconnection at a concrete input. -/
theorem c5_throw_edge_witness :
    (∀ h : (⟨[], [⟨3, some 7, 0⟩, ⟨4, some 8, 1⟩]⟩ :
        TBlock).outgoingThrowsInOrder ≠ [],
      ((⟨[], [⟨3, some 7, 0⟩, ⟨4, some 8, 1⟩]⟩ :
          TBlock).outgoingThrowsInOrder.getLast h).catchType = none →
      new_throw_edges [⟨9, some 5, 0⟩]
        ⟨[], [⟨3, some 7, 0⟩, ⟨4, some 8, 1⟩]⟩ = []) ∧
    (∀ e ∈ new_throw_edges [⟨9, some 5, 0⟩]
        ⟨[], [⟨3, some 7, 0⟩, ⟨4, some 8, 1⟩]⟩,
      ∀ e0 ∈ (⟨[], [⟨3, some 7, 0⟩, ⟨4, some 8, 1⟩]⟩ :
          TBlock).outgoingThrowsInOrder,
      e0.index < e.index) ∧
    ((⟨[], [⟨3, some 7, 0⟩, ⟨4, some 8, 1⟩]⟩ :
        TBlock).outgoingThrowsInOrder = [] →
      new_throw_edges [⟨9, some 5, 0⟩]
          ⟨[], [⟨3, some 7, 0⟩, ⟨4, some 8, 1⟩]⟩ =
        if (⟨[], [⟨3, some 7, 0⟩, ⟨4, some 8, 1⟩]⟩ : TBlock).endsThrowing then
          add_throw_edges [⟨9, some 5, 0⟩] 0
        else []) ∧
    (∀ h : (⟨[], [⟨3, some 7, 0⟩, ⟨4, some 8, 1⟩]⟩ :
        TBlock).outgoingThrowsInOrder ≠ [],
      ((⟨[], [⟨3, some 7, 0⟩, ⟨4, some 8, 1⟩]⟩ :
          TBlock).outgoingThrowsInOrder.getLast h).catchType.isSome = true →
      new_throw_edges [⟨9, some 5, 0⟩]
          ⟨[], [⟨3, some 7, 0⟩, ⟨4, some 8, 1⟩]⟩ =
        add_throw_edges [⟨9, some 5, 0⟩]
          (((⟨[], [⟨3, some 7, 0⟩, ⟨4, some 8, 1⟩]⟩ :
              TBlock).outgoingThrowsInOrder.getLast h).index + 1)) ∧
    (∀ s j, (add_throw_edges [⟨9, some 5, 0⟩] s).get? j =
      ([(⟨9, some 5, 0⟩ : ThrowEdge)].get? j).map
        (fun c => ⟨c.target, c.catchType, s + j⟩)) :=
  c5_throw_edge_reconnection [⟨9, some 5, 0⟩]
    ⟨[], [⟨3, some 7, 0⟩, ⟨4, some 8, 1⟩]⟩ (by decide)

/-! ### Patricia-tree map (src/sparta/include/PatriciaTreeMap.h) -/

/-- Modelled from the spec: is_zero_bit(k, m) of PatriciaTreeUtil.h,
which is not among the sources.  The spec describes branch nodes as
encoding a shared bit-prefix and a branching bit of the integer key;
these are the standard little-endian Okasaki-Gill helpers that the tree
code in PatriciaTreeMap.h is written against (get_lowest_bit and the
key_mask < branching_bit comparison in erase_all_matching rely on the
branching bit being the lowest disagreeing bit).  is_zero_bit tests
whether branching bit m is unset in k. -/
def is_zero_bit (k m : Nat) : Bool := k &&& m == 0

/-- Modelled from the spec: mask(k, m) of PatriciaTreeUtil.h (not among
the sources) — the bits of k strictly below branching bit m, i.e. the
prefix of k with respect to m. -/
def maskBits (k m : Nat) : Nat := k &&& (m - 1)

/-- Modelled from the spec: match_prefix(k, p, m) of PatriciaTreeUtil.h
(not among the sources) — whether key k has prefix p below branching
bit m. -/
def matchPfx (k p m : Nat) : Bool := maskBits k m == p

/-- Modelled from the spec: get_lowest_bit(x) = x & (~x + 1) of
PatriciaTreeUtil.h (not among the sources).  In w-bit unsigned
arithmetic ~x + 1 is 2^w - x (mod 2^w), and for x < 2^w the value
x & (2^w - x) equals x & (x ^^^ (x - 1)), the lowest set bit of x (0
for x = 0), which is the form used here on Nat. -/
def lowestBit (x : Nat) : Nat := x &&& (x ^^^ (x - 1))

/-- Modelled from the spec: get_branching_bit(prefix0, prefix1) of
PatriciaTreeUtil.h (not among the sources) — the lowest bit at which
the two prefixes disagree. -/
def branchingBit (p0 p1 : Nat) : Nat := lowestBit (p0 ^^^ p1)

/-- ptmap_impl::PatriciaTree (PatriciaTreeMap.h lines 417-489): nil is
the null shared_ptr, a leaf holds a key/value pair
(PatriciaTreeLeaf), a branch holds the shared prefix, the branching
bit and the two subtrees (PatriciaTreeBranch).  shared_ptr sharing is
not observable in a pure embedding, so the pointer-equality fast paths
of the C++ code are translated as structural-equality tests (pointer
equality implies structural equality; at the concrete inputs used for
the canonical-form analysis every pointer comparison the C++ code
performs coincides with the structural one because all stored values
are pairwise distinct). -/
inductive PTree (V : Type) where
  | nil
  | leaf (key : Nat) (val : V)
  | branch (pfx : Nat) (bit : Nat) (left : PTree V) (right : PTree V)
deriving DecidableEq, Repr

/- The value semantics used throughout is ptmap_impl::SimpleValue
(PatriciaTreeMap.h lines 115-124) with the default value generalized to
a parameter dflt: Value::equals is =, Value::is_default_value is
= dflt. -/

/-- ptmap_impl::find_value (PatriciaTreeMap.h lines 527-549): the
value bound to a key, or none. -/
def find_value {V : Type} (k : Nat) : PTree V → Option V
  | PTree.nil => none
  | PTree.leaf lk lv => if k = lk then some lv else none
  | PTree.branch _ m l r =>
      if is_zero_bit k m then find_value k l else find_value k r

/-- PatriciaTreeMap::at (PatriciaTreeMap.h lines 224-230): the bound
value, or the default value when the key is unbound. -/
def ptAt {V : Type} (dflt : V) (k : Nat) (t : PTree V) : V :=
  (find_value k t).getD dflt

/-- ptmap_impl::combine_leaf (PatriciaTreeMap.h lines 856-871): combine
:value into the leaf (key lk, value lv); a default combined value
erases the leaf (nullptr), an unchanged value keeps the leaf, anything
else builds a fresh leaf. -/
def combine_leaf {V : Type} [DecidableEq V] (dflt : V) (c : V → V → V)
    (value : V) (lk : Nat) (lv : V) : PTree V :=
  let combined := c lv value
  if combined = dflt then PTree.nil
  else if combined ≠ lv then PTree.leaf lk combined
  else PTree.leaf lk lv

/-- ptmap_impl::combine_new_leaf (PatriciaTreeMap.h lines 873-882):
make a leaf carrying the default value and combine :value into it. -/
def combine_new_leaf {V : Type} [DecidableEq V] (dflt : V) (c : V → V → V)
    (k : Nat) (value : V) : PTree V :=
  combine_leaf dflt c value k dflt

/-- ptmap_impl::join (PatriciaTreeMap.h lines 491-505): hang two trees
with distinct prefixes under a fresh branch on their branching bit. -/
def join {V : Type} (p0 : Nat) (t0 : PTree V) (p1 : Nat) (t1 : PTree V) :
    PTree V :=
  let m := branchingBit p0 p1
  if is_zero_bit p0 m then PTree.branch (maskBits p0 m) m t0 t1
  else PTree.branch (maskBits p0 m) m t1 t0

/-- ptmap_impl::make_branch (PatriciaTreeMap.h lines 507-523): prevents
branch nodes with only one child. -/
def make_branch {V : Type} (p m : Nat) (l r : PTree V) : PTree V :=
  match l with
  | PTree.nil => r
  | _ =>
      match r with
      | PTree.nil => l
      | _ => PTree.branch p m l r

/-- ptmap_impl::update (PatriciaTreeMap.h lines 652-701): replace the
binding of :key with combine(bound_value, :value); the pointer-equality
no-change fast paths (new subtree == old subtree, then return the old
branch) are translated structurally. -/
def ptUpdate {V : Type} [DecidableEq V] (dflt : V) (c : V → V → V) (k : Nat)
    (v : V) : PTree V → PTree V
  | PTree.nil => combine_new_leaf dflt c k v
  | PTree.leaf lk lv =>
      if k = lk then combine_leaf dflt c v lk lv
      else
        match combine_new_leaf dflt c k v with
        | PTree.nil => PTree.leaf lk lv
        | nl => join k nl lk (PTree.leaf lk lv)
  | PTree.branch p m l r =>
      if matchPfx k p m then
        if is_zero_bit k m then
          let nl := ptUpdate dflt c k v l
          if nl = l then PTree.branch p m l r
          else make_branch p m nl r
        else
          let nr := ptUpdate dflt c k v r
          if nr = r then PTree.branch p m l r
          else make_branch p m l nr
      else
        match combine_new_leaf dflt c k v with
        | PTree.nil => PTree.branch p m l r
        | nl => join k nl p (PTree.branch p m l r)

/-- PatriciaTreeMap::update (PatriciaTreeMap.h lines 278-289): the
functional update with combine (x, _) ↦ operation(x) and the default
value as the new-value argument. -/
def mapUpdate {V : Type} [DecidableEq V] (dflt : V) (fn : V → V) (k : Nat)
    (t : PTree V) : PTree V :=
  ptUpdate dflt (fun x _ => fn x) k dflt t

/-- PatriciaTreeMap::insert_or_assign (PatriciaTreeMap.h lines
306-310): update with the ptmap_impl::snd combiner. -/
def insert_or_assign {V : Type} [DecidableEq V] (dflt : V) (k : Nat) (v : V)
    (t : PTree V) : PTree V :=
  ptUpdate dflt (fun _ second => second) k v t

/-- ptmap_impl::merge (PatriciaTreeMap.h lines 763-854), the engine of
PatriciaTreeMap::union_with.  Note that the same-prefix case (lines
803-814) constructs the result branch directly (std::make_shared)
without going through make_branch, so a combining function that yields
the default value can produce a branch with nil children; see
c1_canonical_form_bug.  The pointer-equality fast paths are translated
as structural-equality tests. -/
def ptMerge {V : Type} [DecidableEq V] (dflt : V) (c : V → V → V)
    (s t : PTree V) : PTree V :=
  if s = t then s
  else
    match s, t with
    | PTree.nil, t2 => t2
    | s2, PTree.nil => s2
    | PTree.leaf k v, t2 => ptUpdate dflt c k v t2
    | s2, PTree.leaf k v => ptUpdate dflt c k v s2
    | PTree.branch p m s0 s1, PTree.branch q n t0 t1 =>
        if m = n ∧ p = q then
          let nl := ptMerge dflt c s0 t0
          let nr := ptMerge dflt c s1 t1
          if nl = s0 ∧ nr = s1 then PTree.branch p m s0 s1
          else if nl = t0 ∧ nr = t1 then PTree.branch q n t0 t1
          else PTree.branch p m nl nr
        else if m < n ∧ matchPfx q p m then
          if is_zero_bit q m then
            let nl := ptMerge dflt c s0 (PTree.branch q n t0 t1)
            if s0 = nl then PTree.branch p m s0 s1
            else PTree.branch p m nl s1
          else
            let nr := ptMerge dflt c s1 (PTree.branch q n t0 t1)
            if s1 = nr then PTree.branch p m s0 s1
            else PTree.branch p m s0 nr
        else if m > n ∧ matchPfx p q n then
          if is_zero_bit p n then
            let nl := ptMerge dflt c (PTree.branch p m s0 s1) t0
            if t0 = nl then PTree.branch q n t0 t1
            else PTree.branch q n nl t1
          else
            let nr := ptMerge dflt c (PTree.branch p m s0 s1) t1
            if t1 = nr then PTree.branch q n t0 t1
            else PTree.branch q n t0 nr
        else join p (PTree.branch p m s0 s1) q (PTree.branch q n t0 t1)
termination_by sizeOf s + sizeOf t
decreasing_by all_goals (simp_wf; try omega)

/-- ptmap_impl::equals (PatriciaTreeMap.h lines 608-647): structural
equality of trees; the pointer-equality fast path is translated as a
structural test, which only short-circuits a comparison that would
return true anyway. -/
def ptEquals {V : Type} [DecidableEq V] : PTree V → PTree V → Bool
  | t1, t2 =>
    if t1 = t2 then true
    else
      match t1, t2 with
      | PTree.nil, _ => false
      | _, PTree.nil => false
      | PTree.leaf k1 v1, PTree.leaf k2 v2 => k1 == k2 && decide (v1 = v2)
      | PTree.leaf _ _, PTree.branch _ _ _ _ => false
      | PTree.branch _ _ _ _, PTree.leaf _ _ => false
      | PTree.branch p1 m1 l1 r1, PTree.branch p2 m2 l2 r2 =>
          p1 == p2 && m1 == m2 && ptEquals l1 l2 && ptEquals r1 r2

/-- PatriciaTreeMap::size (PatriciaTreeMap.h lines 212-216) counts the
bindings by iterating over the leaves. -/
def treeSize {V : Type} : PTree V → Nat
  | PTree.nil => 0
  | PTree.leaf _ _ => 1
  | PTree.branch _ _ l r => treeSize l + treeSize r

/-- The keys materialized in a tree. -/
def keysOf {V : Type} : PTree V → List Nat
  | PTree.nil => []
  | PTree.leaf k _ => [k]
  | PTree.branch _ _ l r => keysOf l ++ keysOf r

/-- The map invariant that the default value is never stored in a
leaf. -/
def noDefaultLeaf {V : Type} [DecidableEq V] (dflt : V) : PTree V → Bool
  | PTree.nil => true
  | PTree.leaf _ v => decide (v ≠ dflt)
  | PTree.branch _ _ l r => noDefaultLeaf dflt l && noDefaultLeaf dflt r

/-- Well-formedness of a Patricia tree: leaves never store the default
value, branch nodes always have two children, and every key below a
branch matches the branch prefix and is routed left/right by the
branching bit. -/
def wfTree {V : Type} [DecidableEq V] (dflt : V) : PTree V → Bool
  | PTree.nil => true
  | PTree.leaf _ v => decide (v ≠ dflt)
  | PTree.branch p m l r =>
      decide (l ≠ PTree.nil) && decide (r ≠ PTree.nil) &&
      wfTree dflt l && wfTree dflt r &&
      (keysOf l).all (fun key => matchPfx key p m && is_zero_bit key m) &&
      (keysOf r).all (fun key => matchPfx key p m && !is_zero_bit key m)

lemma find_value_mem_keys {V : Type} (k : Nat) :
    ∀ (t : PTree V) (v : V), find_value k t = some v → k ∈ keysOf t := by
  intro t
  induction t with
  | nil => intro v h; simp [find_value] at h
  | leaf lk lv =>
      intro v h
      simp only [find_value] at h
      by_cases hk : k = lk
      · subst hk; simp [keysOf]
      · rw [if_neg hk] at h; simp at h
  | branch p m l r ihl ihr =>
      intro v h
      simp only [find_value] at h
      by_cases hz : is_zero_bit k m = true
      · rw [if_pos hz] at h
        exact List.mem_append.mpr (Or.inl (ihl v h))
      · rw [if_neg hz] at h
        exact List.mem_append.mpr (Or.inr (ihr v h))

lemma find_value_none_of_not_mem {V : Type} (k : Nat) (t : PTree V)
    (h : k ∉ keysOf t) : find_value k t = none := by
  rcases hf : find_value k t with _ | v
  · rfl
  · exact absurd (find_value_mem_keys k t v hf) h

lemma noDefaultLeaf_of_wf {V : Type} [DecidableEq V] (dflt : V) :
    ∀ t : PTree V, wfTree dflt t = true → noDefaultLeaf dflt t = true := by
  intro t
  induction t with
  | nil => intro h; rfl
  | leaf lk lv => intro h; simpa [wfTree, noDefaultLeaf] using h
  | branch p m l r ihl ihr =>
      intro h
      simp only [wfTree, Bool.and_eq_true] at h
      simp only [noDefaultLeaf, Bool.and_eq_true]
      exact ⟨ihl h.1.1.1.2, ihr h.1.1.2⟩

lemma make_branch_cases {V : Type} (p m : Nat) (l r : PTree V)
    (hr : r ≠ PTree.nil) :
    (l = PTree.nil ∧ make_branch p m l r = r) ∨
    (l ≠ PTree.nil ∧ make_branch p m l r = PTree.branch p m l r) := by
  rcases l with _ | ⟨k1, v1⟩ | ⟨p1, m1, l1, r1⟩
  · exact Or.inl ⟨rfl, rfl⟩
  · refine Or.inr ⟨by simp, ?_⟩
    rcases r with _ | ⟨k2, v2⟩ | ⟨p2, m2, l2, r2⟩
    · exact absurd rfl hr
    · rfl
    · rfl
  · refine Or.inr ⟨by simp, ?_⟩
    rcases r with _ | ⟨k2, v2⟩ | ⟨p2, m2, l2, r2⟩
    · exact absurd rfl hr
    · rfl
    · rfl

lemma mapUpdate_elision_aux {V : Type} [DecidableEq V] (dflt : V)
    (fn : V → V) (k : Nat) :
    ∀ t : PTree V, wfTree dflt t = true → fn (ptAt dflt k t) = dflt →
      find_value k (mapUpdate dflt fn k t) = none ∧
      treeSize (mapUpdate dflt fn k t) ≤ treeSize t ∧
      noDefaultLeaf dflt (mapUpdate dflt fn k t) = true := by
  intro t
  induction t with
  | nil =>
      intro hwf hd
      have hfd : fn dflt = dflt := hd
      refine ⟨?_, ?_, ?_⟩ <;>
        simp [mapUpdate, ptUpdate, combine_new_leaf, combine_leaf, hfd,
          find_value, treeSize, noDefaultLeaf]
  | leaf lk lv =>
      intro hwf hd
      have hlv : lv ≠ dflt := by simpa [wfTree] using hwf
      by_cases hk : k = lk
      · subst hk
        have hfl : fn lv = dflt := by simpa [ptAt, find_value] using hd
        refine ⟨?_, ?_, ?_⟩ <;>
          simp [mapUpdate, ptUpdate, combine_leaf, hfl, find_value,
            treeSize, noDefaultLeaf]
      · have hfd : fn dflt = dflt := by
          simpa [ptAt, find_value, hk] using hd
        refine ⟨?_, ?_, ?_⟩ <;>
          simp [mapUpdate, ptUpdate, hk, combine_new_leaf, combine_leaf,
            hfd, find_value, treeSize, noDefaultLeaf, hlv]
  | branch p m l r ihl ihr =>
      intro hwf hd
      have hw := hwf
      simp only [wfTree, Bool.and_eq_true, List.all_eq_true,
        decide_eq_true_eq] at hw
      obtain ⟨⟨⟨⟨⟨hlnil, hrnil⟩, hwl⟩, hwr⟩, hkl⟩, hkr⟩ := hw
      have hkl2 : ∀ key ∈ keysOf l,
          matchPfx key p m = true ∧ is_zero_bit key m = true := by
        intro key hkey
        have := hkl key hkey
        simpa [Bool.and_eq_true] using this
      have hkr2 : ∀ key ∈ keysOf r,
          matchPfx key p m = true ∧ is_zero_bit key m = false := by
        intro key hkey
        have := hkr key hkey
        simpa [Bool.and_eq_true] using this
      by_cases hpm : matchPfx k p m = true
      · by_cases hz : is_zero_bit k m = true
        · -- the key is routed into the left subtree
          have hdl : fn (ptAt dflt k l) = dflt := by
            simpa [ptAt, find_value, hz] using hd
          obtain ⟨ihf, ihs, ihn⟩ := ihl hwl hdl
          simp only [mapUpdate] at ihf ihs ihn ⊢
          by_cases hnl : ptUpdate dflt (fun x _ => fn x) k dflt l = l
          · rw [hnl] at ihf ihs ihn
            refine ⟨?_, ?_, ?_⟩ <;>
              simp [ptUpdate, hpm, hz, hnl, find_value, treeSize,
                noDefaultLeaf, ihf, ihn, noDefaultLeaf_of_wf dflt r hwr]
          · have hred : ptUpdate dflt (fun x _ => fn x) k dflt
                (PTree.branch p m l r) =
                make_branch p m (ptUpdate dflt (fun x _ => fn x) k dflt l) r := by
              simp [ptUpdate, hpm, hz, hnl]
            rw [hred]
            rcases make_branch_cases p m
                (ptUpdate dflt (fun x _ => fn x) k dflt l) r hrnil with
              ⟨hn, hmb⟩ | ⟨hn, hmb⟩
            · rw [hmb]
              have hkr3 : k ∉ keysOf r := by
                intro hkin
                have := (hkr2 k hkin).2
                rw [hz] at this
                exact Bool.noConfusion this
              refine ⟨find_value_none_of_not_mem k r hkr3, ?_, ?_⟩
              · simp only [treeSize]
                omega
              · exact noDefaultLeaf_of_wf dflt r hwr
            · rw [hmb]
              refine ⟨?_, ?_, ?_⟩
              · simp [find_value, hz, ihf]
              · simp only [treeSize]
                omega
              · simp [noDefaultLeaf, ihn, noDefaultLeaf_of_wf dflt r hwr]
        · -- the key is routed into the right subtree
          have hdr : fn (ptAt dflt k r) = dflt := by
            simpa [ptAt, find_value, hz] using hd
          obtain ⟨ihf, ihs, ihn⟩ := ihr hwr hdr
          simp only [mapUpdate] at ihf ihs ihn ⊢
          by_cases hnr : ptUpdate dflt (fun x _ => fn x) k dflt r = r
          · rw [hnr] at ihf ihs ihn
            refine ⟨?_, ?_, ?_⟩ <;>
              simp [ptUpdate, hpm, hz, hnr, find_value, treeSize,
                noDefaultLeaf, ihf, ihn, noDefaultLeaf_of_wf dflt l hwl]
          · have hred : ptUpdate dflt (fun x _ => fn x) k dflt
                (PTree.branch p m l r) =
                make_branch p m l (ptUpdate dflt (fun x _ => fn x) k dflt r) := by
              simp [ptUpdate, hpm, hz, hnr]
            rw [hred]
            by_cases hn : ptUpdate dflt (fun x _ => fn x) k dflt r = PTree.nil
            · rw [hn]
              have hmb : make_branch p m l PTree.nil = l := by
                rcases l with _ | ⟨k1, v1⟩ | ⟨p1, m1, l1, r1⟩ <;> rfl
              rw [hmb]
              have hkl3 : k ∉ keysOf l := by
                intro hkin
                have := (hkl2 k hkin).2
                rw [this] at hz
                exact absurd rfl hz
              refine ⟨find_value_none_of_not_mem k l hkl3, ?_, ?_⟩
              · simp only [treeSize]
                omega
              · exact noDefaultLeaf_of_wf dflt l hwl
            · have hmb : make_branch p m l
                  (ptUpdate dflt (fun x _ => fn x) k dflt r) =
                  PTree.branch p m l
                    (ptUpdate dflt (fun x _ => fn x) k dflt r) := by
                rcases hlc : l with _ | ⟨k1, v1⟩ | ⟨p1, m1, l1, r1⟩
                · exact absurd hlc hlnil
                · rcases hrc : ptUpdate dflt (fun x _ => fn x) k dflt r with
                    _ | _ | _
                  · exact absurd hrc hn
                  · rfl
                  · rfl
                · rcases hrc : ptUpdate dflt (fun x _ => fn x) k dflt r with
                    _ | _ | _
                  · exact absurd hrc hn
                  · rfl
                  · rfl
              rw [hmb]
              refine ⟨?_, ?_, ?_⟩
              · simp [find_value, hz, ihf]
              · simp only [treeSize]
                omega
              · simp [noDefaultLeaf, ihn, noDefaultLeaf_of_wf dflt l hwl]
      · -- the key's prefix mismatches: no binding, tree unchanged
        have hknotin : k ∉ keysOf (PTree.branch p m l r) := by
          simp only [keysOf, List.mem_append]
          rintro (hkin | hkin)
          · exact absurd (hkl2 k hkin).1 (by simpa using hpm)
          · exact absurd (hkr2 k hkin).1 (by simpa using hpm)
        have hnone : find_value k (PTree.branch p m l r) = none :=
          find_value_none_of_not_mem k _ hknotin
        have hfd : fn dflt = dflt := by
          simpa [ptAt, hnone] using hd
        have hred : mapUpdate dflt fn k (PTree.branch p m l r) =
            PTree.branch p m l r := by
          simp [mapUpdate, ptUpdate, hpm, combine_new_leaf, combine_leaf, hfd]
        rw [hred]
        exact ⟨hnone, le_refl _, noDefaultLeaf_of_wf dflt _ hwf⟩

/-- Claim C6: updating a key with a function that yields the default
value leaves the key unbound — it is not materialized as a leaf, at(key)
returns the default value afterwards, size() does not increase, and no
leaf of the result stores the default value. -/
theorem c6_default_elision {V : Type} [DecidableEq V] (dflt : V)
    (fn : V → V) (k : Nat) (t : PTree V)
    (hwf : wfTree dflt t = true)
    (hd : fn (ptAt dflt k t) = dflt) :
    find_value k (mapUpdate dflt fn k t) = none ∧
    ptAt dflt k (mapUpdate dflt fn k t) = dflt ∧
    treeSize (mapUpdate dflt fn k t) ≤ treeSize t ∧
    noDefaultLeaf dflt (mapUpdate dflt fn k t) = true := by
  obtain ⟨h1, h2, h3⟩ := mapUpdate_elision_aux dflt fn k t hwf hd
  exact ⟨h1, by simp [ptAt, h1], h2, h3⟩

/-- Witness for c6_default_elision at a concrete input. -/
theorem c6_default_witness :
    find_value 1 (mapUpdate 0 (fun _ => 0) 1 (PTree.leaf 1 5)) = none ∧
    ptAt 0 1 (mapUpdate 0 (fun _ => 0) 1 (PTree.leaf 1 5)) = 0 ∧
    treeSize (mapUpdate 0 (fun _ => 0) 1 (PTree.leaf 1 5)) ≤
      treeSize (PTree.leaf 1 5) ∧
    noDefaultLeaf 0 (mapUpdate 0 (fun _ => 0) 1 (PTree.leaf 1 5)) = true :=
  c6_default_elision 0 (fun _ => 0) 1 (PTree.leaf 1 5) (by decide) rfl

/-- Claim C7: taking the union with the empty map returns the original
tree itself (the second null check of ptmap_impl::merge hands back the
s operand unchanged), so reference_equals with the pre-union map
holds. -/
theorem c7_union_with_empty_identity {V : Type} [DecidableEq V] (dflt : V)
    (c : V → V → V) (t : PTree V) :
    ptMerge dflt c t PTree.nil = t := by
  cases t with
  | nil => simp [ptMerge]
  | leaf k v => simp [ptMerge]
  | branch p m l r => simp [ptMerge]

/-- The map {0 → 1, 1 → 2} built by two insert_or_assign calls over
the default value 0. -/
def c1map1 : PTree Nat :=
  insert_or_assign 0 1 2 (insert_or_assign 0 0 1 PTree.nil)

/-- The map {0 → 3, 1 → 4} built by two insert_or_assign calls over
the default value 0.  All four stored values are pairwise distinct from
each other and from c1map1's, so every pointer comparison the C++ code
makes on these inputs coincides with the structural one. -/
def c1map2 : PTree Nat :=
  insert_or_assign 0 1 4 (insert_or_assign 0 0 3 PTree.nil)

/-- Claim C1 (code bug): union_with with a combining function that
yields the default value produces a tree with the same bindings as the
empty map that nevertheless fails equals() against it, is structurally
a branch with two nil children (not the canonical empty tree), and
violates the well-formedness invariant that a branch always has two
children — the same-prefix case of ptmap_impl::merge (PatriciaTreeMap.h
lines 803-814) builds the result branch directly instead of going
through make_branch. -/
theorem c1_canonical_form_bug :
    ptMerge 0 (fun _ _ => 0) c1map1 c1map2 =
      PTree.branch 0 1 PTree.nil PTree.nil ∧
    (∀ k, ptAt 0 k (ptMerge 0 (fun _ _ => 0) c1map1 c1map2) =
      ptAt 0 k (PTree.nil : PTree Nat)) ∧
    ptEquals (ptMerge 0 (fun _ _ => 0) c1map1 c1map2) PTree.nil = false ∧
    wfTree 0 (ptMerge 0 (fun _ _ => 0) c1map1 c1map2) = false := by
  have hm : ptMerge 0 (fun _ _ => 0) c1map1 c1map2 =
      PTree.branch 0 1 PTree.nil PTree.nil := by
    simp [ptMerge, c1map1, c1map2, insert_or_assign, ptUpdate,
      combine_new_leaf, combine_leaf, join, make_branch, branchingBit,
      lowestBit, maskBits, is_zero_bit, matchPfx]
  refine ⟨hm, ?_, ?_, ?_⟩
  · intro k
    rw [hm]
    by_cases hz : is_zero_bit k 1 = true <;>
      simp [ptAt, find_value, hz]
  · rw [hm]
    simp [ptEquals]
  · rw [hm]
    decide

end Redex
